import Mathlib

/-!
# Verification of `conv_net_sentence.py` (CNN_sentence)

A shallow embedding of the orchestration core of `conv_net_sentence.py`:
the sentence encoder `sent2indices`, the corpus reader `read_corpus`,
the cross-validation splitter `kfold`, the prediction re-labelling loop,
the persistence protocol (model stream followed by a metadata record),
and the cross-validation accuracy aggregation.

Conventions of the embedding:
* Python dictionaries used as vocabularies (`word in word_index`,
  `word_index[word]`) are modelled as functions `String → Option Nat`.
* Python integer arithmetic on nonnegative values is modelled over `Nat`;
  `max(0, a - b)` on nonnegative ints coincides with truncated `Nat`
  subtraction `a - b`, which is used where noted.
* Generators are modelled as the list of their yielded values.
* `np.random.shuffle` is modelled by quantifying theorems over an
  arbitrary permutation of the index range.
-/

/-- A vocabulary: `word in word_index` is `(word_index w).isSome`, and
`word_index[word]` is the value carried by `some`. -/
abbrev WordIndex := String → Option Nat

/-- The token loop of `sent2indices` (lines 33-38 of the source):

```
for word in sent:
    if word in word_index: # FIXME: skips unknown words
        if len(x) < max_l: # truncate long sent
            x.append(word_index[word])
        else:
            break
```

`x` is the accumulator (initially the left padding). An unknown word is
skipped; a known word is appended while `len(x) < max_l` — note that
`len(x)` includes the left padding — and otherwise the loop breaks. -/
def sent2loop (word_index : WordIndex) (max_l : Nat) : List String → List Nat → List Nat
  | [], x => x
  | w :: ws, x =>
    match word_index w with
    | some i => if x.length < max_l then sent2loop word_index max_l ws (x ++ [i]) else x
    | none => sent2loop word_index max_l ws x

/-- Function `sent2indices(sent, word_index, max_l, pad)` (lines 23-41): left padding
of `pad` zeroes, the token loop, then right padding
`[0] * max(0, max_l + 2 * pad - len(x))`.  Truncated `Nat` subtraction
models the `max(0, ·)` clamp exactly. -/
def sent2indices (sent : List String) (word_index : WordIndex) (max_l pad : Nat) : List Nat :=
  let x := sent2loop word_index max_l sent (List.replicate pad 0)
  x ++ List.replicate (max_l + 2 * pad - x.length) 0

/-- The content positions of an encoded sample: what the token loop produced
after the left padding (the right padding is appended afterwards). -/
def contentOf (sent : List String) (word_index : WordIndex) (max_l pad : Nat) : List Nat :=
  (sent2loop word_index max_l sent (List.replicate pad 0)).drop pad

/-- Concrete one-word vocabulary used in concrete evaluations. -/
def wiA : WordIndex := fun w => if w = "a" then some 1 else none

/-- Concrete two-word vocabulary `\x7b"hello": 1, "world": 2\x7d`. -/
def wiHW : WordIndex := fun w =>
  if w = "hello" then some 1 else if w = "world" then some 2 else none

/-- Concrete two-word vocabulary `\x7b"a": 1, "b": 2\x7d`. -/
def wiAB : WordIndex := fun w =>
  if w = "a" then some 1 else if w = "b" then some 2 else none

/-- One record of `read_corpus` (lines 57-63).  A raw line after
`line.strip().split("\t")` is modelled as its field list.  The source takes
the text field and passes it directly to `sent2indices`:

```
text = fields[textField]
if lower:
    text = text.lower()
sent = sent2indices(text, word_index, max_l, pad)
```

Python iterates over a `str` character by character, so the `sent`
argument received by `sent2indices` is the sequence of one-character
strings of `text`; the embedding makes that explicit.  Field access
`fields[textField]` is modelled with `getD` (all uses are in range). -/
def read_corpus_line (word_index : WordIndex) (max_l pad : Nat) (lower : Bool)
    (textField : Nat) (fields : List String) : List Nat :=
  let text := fields.getD textField ""
  let text := if lower then text.toLower else text
  sent2indices (text.data.map fun c => String.singleton c) word_index max_l pad

/-- Function `read_corpus` (lines 44-64): one encoded row per input record, in input
order. -/
def read_corpus (word_index : WordIndex) (max_l pad : Nat) (lower : Bool)
    (textField : Nat) (lines : List (List String)) : List (List Nat) :=
  lines.map (read_corpus_line word_index max_l pad lower textField)

/-- Fold sizes of `kfold` (lines 93-94):
`fold_sizes = (n // folds) * ones(folds); fold_sizes[:n % folds] += 1`. -/
def foldSizes (n folds : Nat) : List Nat :=
  (List.range folds).map (fun i => n / folds + if i < n % folds then 1 else 0)

/-- The slicing loop of `kfold` (lines 95-99): for each fold size `s`,
yield `(np.append(indices[:start], indices[stop:]), indices[start:stop])`
with `start = current`, `stop = current + s`, then advance `current`. -/
def kfoldSlices (indices : List Nat) : Nat → List Nat → List (List Nat × List Nat)
  | _, [] => []
  | current, s :: rest =>
    (indices.take current ++ indices.drop (current + s),
     (indices.drop current).take s) :: kfoldSlices indices (current + s) rest

/-- Function `kfold(n_samples, folds)` for `folds ≥ 2` (lines 92-99), as the list of
yielded (train, test) pairs.  `indices` stands for the result of
`np.random.shuffle(np.arange(n_samples))`; theorems quantify over an
arbitrary permutation of `List.range n`. -/
def kfold (indices : List Nat) (n folds : Nat) : List (List Nat × List Nat) :=
  kfoldSlices indices 0 (foldSizes n folds)

/-- Function `kfold(n_samples, folds)` for `folds < 2` (lines 88-90): the generator
yields the bare index array `np.arange(n_samples)` (still unshuffled: the
shuffle happens after this branch) as its single yielded value — a single
array, not a (train, test) pair. -/
def kfoldDegenerate (n : Nat) : List (List Nat) := [List.range n]

/-- One output record of the predict branch (lines 145-148): the input line
split on tabs, with the tag field overwritten by the label of the predicted
class:

```
tokens = line.split("\t")
tokens[args.tagField] = labels[y]
print "\t".join(tokens),
```

The emitted line is modelled as its token list; `labels[y]` and the
element assignment are modelled with `getD`/`set` (all uses in range). -/
def relabel (labels : List String) (tagField : Nat) (tokens : List String) (y : Nat) :
    List String :=
  tokens.set tagField (labels.getD y "")

/-- The output loop of the predict branch (line 145):
`for line, y in zip(open(args.input), results)` — Python `zip` pairs the
two sequences positionally and stops at the shorter one, exactly like
`List.zip`. -/
def emitAll (labels : List String) (tagField : Nat) (lines : List (List String))
    (results : List Nat) : List (List String) :=
  (lines.zip results).map (fun p => relabel labels tagField p.1 p.2)

/-- A token of the model artifact stream.  The artifact (a pickle/serialized
byte stream) is modelled as a list of tokens that are either naturals or
strings. -/
inductive Tok where
  | nat (n : Nat) : Tok
  | str (s : String) : Tok
deriving DecidableEq

/-- A vocabulary in serialized form: the word/index pairs. -/
abbrev Vocab := List (String × Nat)

/-- Serialization of a vocabulary: its size followed by the word/index
pairs in order. -/
def pickleVocab (v : Vocab) : List Tok :=
  Tok.nat v.length :: (v.map (fun p => [Tok.str p.1, Tok.nat p.2])).flatten

/-- Serialization of the label table: its size followed by the labels. -/
def pickleLabels (ls : List String) : List Tok :=
  Tok.nat ls.length :: ls.map Tok.str

/-- The call `pickle.dump((word_index, max_l, pad, labels), mfile)` (line 220):
the metadata record appended after the model block. -/
def pickleMeta (v : Vocab) (max_l pad : Nat) (labels : List String) : List Tok :=
  pickleVocab v ++ [Tok.nat max_l, Tok.nat pad] ++ pickleLabels labels

/-- Modelled from the spec: `ConvNet.save` (the class lives in
`conv_net_classes.py`, which is not part of the sources given).  The spec
only requires the model block to be self-delimiting — "consuming however
many bytes its format requires" — so the model parameters are modelled as
an opaque token list written with a length prefix. -/
def convSave (params : List Tok) : List Tok :=
  Tok.nat params.length :: params

/-- Modelled from the spec: `ConvNet.load` (line 138) consumes exactly the
block written by `convSave` and leaves the remaining stream untouched. -/
def convLoad (s : List Tok) : Option (List Tok × List Tok) :=
  match s with
  | Tok.nat k :: rest => if k ≤ rest.length then some (rest.take k, rest.drop k) else none
  | _ => none

/-- Deserialize one natural from the stream. -/
def takeNat : List Tok → Option (Nat × List Tok)
  | Tok.nat n :: rest => some (n, rest)
  | _ => none

/-- Deserialize `k` word/index pairs from the stream. -/
def decodePairs : Nat → List Tok → Option (Vocab × List Tok)
  | 0, s => some ([], s)
  | Nat.succ k, Tok.str w :: Tok.nat i :: s =>
    match decodePairs k s with
    | some (ps, r) => some ((w, i) :: ps, r)
    | none => none
  | Nat.succ _, _ => none

/-- Deserialize `k` strings from the stream. -/
def decodeStrs : Nat → List Tok → Option (List String × List Tok)
  | 0, s => some ([], s)
  | Nat.succ k, Tok.str w :: s =>
    match decodeStrs k s with
    | some (ws, r) => some (w :: ws, r)
    | none => none
  | Nat.succ _, _ => none

/-- The call `pickle.load(mfile)` (line 139) on the remaining stream: the metadata
tuple `(word_index, max_l, pad, labels)` read back field by field. -/
def unpickleMeta (s : List Tok) : Option ((Vocab × Nat × Nat × List String) × List Tok) := do
  let (nv, s) ← takeNat s
  let (v, s) ← decodePairs nv s
  let (ml, s) ← takeNat s
  let (pd, s) ← takeNat s
  let (nl, s) ← takeNat s
  let (ls, s) ← decodeStrs nl s
  some ((v, ml, pd, ls), s)

/-- The `save` closure (lines 217-220): the model block first, then the
metadata record, on one stream. -/
def saveModel (params : List Tok) (v : Vocab) (max_l pad : Nat) (labels : List String) :
    List Tok :=
  convSave params ++ pickleMeta v max_l pad labels

/-- The load sequence of the predict branch (lines 137-139): deserialize
the model first, then the trailing metadata record from the remaining
stream. -/
def loadModel (artifact : List Tok) :
    Option (List Tok × (Vocab × Nat × Nat × List String)) := do
  let (params, rest) ← convLoad artifact
  let (meta, _) ← unpickleMeta rest
  some (params, meta)

/-- Function `np.mean` on a list of rationals: sum divided by length. -/
def npMean (l : List ℚ) : ℚ := l.sum / (l.length : ℚ)

/-- The cross-validation loop (lines 231-247) collecting one per-fold
accuracy per iteration: `results.append(perf)` for `i in range(cv)`.
`perf` abstracts what `cnn.train` returns for fold `i`. -/
def cvResults (cv : Nat) (perf : Nat → ℚ) : List ℚ :=
  (List.range cv).map perf

/-- The reported final metric (line 248): `np.mean(results)`. -/
def avgAccuracy (cv : Nat) (perf : Nat → ℚ) : ℚ :=
  npMean (cvResults cv perf)

/-- For comparison only (the spec rules this out): the fold-size-weighted
mean of per-fold accuracies. -/
def sizeWeightedMean (sizes : List Nat) (accs : List ℚ) : ℚ :=
  ((sizes.zip accs).map (fun p => (p.1 : ℚ) * p.2)).sum / ((sizes.sum : Nat) : ℚ)

/-- Closed form of the token loop: it appends, after the accumulator, the
in-vocabulary indices of the tokens in order, truncated to the room left
under `max_l` (counted from the total accumulator length, left padding
included). -/
theorem sent2loop_eq (word_index : WordIndex) (max_l : Nat) :
    ∀ (sent : List String) (x : List Nat),
      sent2loop word_index max_l sent x =
        x ++ (sent.filterMap word_index).take (max_l - x.length) := by
  intro sent
  induction sent with
  | nil => intro x; simp [sent2loop]
  | cons w ws ih =>
    intro x
    cases hw : word_index w with
    | none =>
      rw [sent2loop, hw]
      simp only [List.filterMap_cons_none hw]
      exact ih x
    | some i =>
      rw [sent2loop, hw]
      simp only [List.filterMap_cons_some hw]
      by_cases hlt : x.length < max_l
      · rw [if_pos hlt, ih (x ++ [i])]
        obtain ⟨k, hk⟩ : ∃ k, max_l - x.length = k + 1 :=
          ⟨max_l - x.length - 1, by omega⟩
        rw [hk, List.take_succ_cons]
        have hk2 : max_l - (x ++ [i]).length = k := by
          simp only [List.length_append, List.length_singleton]
          omega
        rw [hk2, List.append_assoc, List.singleton_append]
      · rw [if_neg hlt]
        have h0 : max_l - x.length = 0 := by omega
        rw [h0, List.take_zero, List.append_nil]

/-- The accumulated list of the token loop, starting from the left padding:
padding zeroes followed by the truncated in-vocabulary indices. -/
theorem sent2loop_pad (sent : List String) (word_index : WordIndex) (max_l pad : Nat) :
    sent2loop word_index max_l sent (List.replicate pad 0) =
      List.replicate pad 0 ++ (sent.filterMap word_index).take (max_l - pad) := by
  rw [sent2loop_eq, List.length_replicate]

/-- The content positions are exactly the in-vocabulary indices in order,
truncated to `max_l - pad` (truncated subtraction). -/
theorem contentOf_eq (sent : List String) (word_index : WordIndex) (max_l pad : Nat) :
    contentOf sent word_index max_l pad =
      (sent.filterMap word_index).take (max_l - pad) := by
  rw [contentOf, sent2loop_pad]
  have := List.drop_left (List.replicate pad (0 : Nat))
    ((sent.filterMap word_index).take (max_l - pad))
  rw [List.length_replicate] at this
  exact this

/-- C2: for every token sequence, vocabulary, `max_l ≥ 0` and `pad ≥ 0`
(automatic over `Nat`), the encoded sample returned by `sent2indices` has
length exactly `max_l + 2 * pad`; the right padding count is computed with
the `max(0, ·)` clamp (truncated subtraction), so it is never negative. -/
theorem sent2indices_length (sent : List String) (word_index : WordIndex) (max_l pad : Nat) :
    (sent2indices sent word_index max_l pad).length = max_l + 2 * pad := by
  rw [sent2indices]
  have hx : (sent2loop word_index max_l sent (List.replicate pad 0)).length ≤
      pad + (max_l - pad) := by
    rw [sent2loop_pad, List.length_append, List.length_replicate]
    have := List.length_take_le (max_l - pad) (sent.filterMap word_index)
    omega
  simp only [List.length_append, List.length_replicate]
  omega

/-- C9: for every input the first `pad` elements of the encoded sample are
zero, and a token sequence consisting entirely of out-of-vocabulary words
encodes to the all-zero sequence of length `max_l + 2 * pad` (valid output,
not an error). -/
theorem sent2indices_pad_zero_oov (sent : List String) (word_index : WordIndex)
    (max_l pad : Nat) :
    (sent2indices sent word_index max_l pad).take pad = List.replicate pad 0 ∧
    ((∀ w ∈ sent, word_index w = none) →
      sent2indices sent word_index max_l pad = List.replicate (max_l + 2 * pad) 0) := by
  constructor
  · rw [sent2indices]
    rw [sent2loop_pad, List.append_assoc]
    have := List.take_left (List.replicate pad (0 : Nat))
      ((sent.filterMap word_index).take (max_l - pad) ++
        List.replicate (max_l + 2 * pad -
          (List.replicate pad (0 : Nat) ++
            (sent.filterMap word_index).take (max_l - pad)).length) 0)
    rw [List.length_replicate] at this
    exact this
  · intro hoov
    have hfm : sent.filterMap word_index = [] := List.filterMap_eq_nil_iff.mpr hoov
    rw [sent2indices, sent2loop_pad, hfm, List.take_nil, List.append_nil,
      List.length_replicate]
    rw [← List.replicate_add]
    have : pad + (max_l + 2 * pad - pad) = max_l + 2 * pad := by omega
    rw [this]

/-- C9 witness: concrete instance with `sent = ["q"]`, an empty vocabulary,
`max_l = 2`, `pad = 1`. -/
theorem sent2indices_pad_zero_oov_witness :
    (sent2indices ["q"] (fun _ => none) 2 1).take 1 = List.replicate 1 0 ∧
    sent2indices ["q"] (fun _ => none) 2 1 = List.replicate (2 + 2 * 1) 0 := by
  have h := sent2indices_pad_zero_oov ["q"] (fun _ => none) 2 1
  exact ⟨h.1, h.2 (by intro w _; rfl)⟩

/-- C3 counterexample: with vocabulary `\x7b"a": 1\x7d`, `max_l = 2`,
`pad = 1`, the sentence `["a", "a"]` contains `2 ≥ max_l` in-vocabulary
tokens, yet it encodes to `[0, 1, 0, 0]` with a single content position,
not `max_l = 2` of them: the left padding does count toward the truncation
limit `len(x) < max_l`. -/
theorem sent2indices_pad_counts_cex :
    (["a", "a"].filterMap wiA).length = 2 ∧
    sent2indices ["a", "a"] wiA 2 1 = [0, 1, 0, 0] ∧
    (contentOf ["a", "a"] wiA 2 1).length = 1 ∧
    (contentOf ["a", "a"] wiA 2 1).length ≠ 2 := by
  refine ⟨rfl, rfl, rfl, by decide⟩

/-- C3 amended: an in-vocabulary token is appended exactly when the current
total length including the left pad is below `max_l`, so a sequence
containing at least `max_l - pad` in-vocabulary tokens encodes to exactly
`max_l - pad` content positions (truncated subtraction; the left-pad zeroes
count toward the truncation limit); out-of-vocabulary tokens are skipped
and do not count toward truncation. -/
theorem sent2indices_truncation_amended (sent : List String) (word_index : WordIndex)
    (max_l pad : Nat)
    (hfull : max_l - pad ≤ (sent.filterMap word_index).length) :
    contentOf sent word_index max_l pad = (sent.filterMap word_index).take (max_l - pad) ∧
    (contentOf sent word_index max_l pad).length = max_l - pad := by
  refine ⟨contentOf_eq sent word_index max_l pad, ?_⟩
  rw [contentOf_eq, List.length_take]
  omega

/-- C3 amended, witness: `["a", "a", "a"]` with vocabulary `\x7b"a": 1\x7d`,
`max_l = 2`, `pad = 1` has `3 ≥ max_l - pad = 1` known tokens and encodes
to exactly one content position. -/
theorem sent2indices_truncation_amended_witness :
    contentOf ["a", "a", "a"] wiA 2 1 = (["a", "a", "a"].filterMap wiA).take (2 - 1) ∧
    (contentOf ["a", "a", "a"] wiA 2 1).length = 2 - 1 :=
  sent2indices_truncation_amended ["a", "a", "a"] wiA 2 1 (by decide)

/-- C10 (implicit): the content positions are the in-vocabulary indices of
the input tokens in their original relative order (truncated); every
nonzero element of the encoded sample is the vocabulary index of some token
of the input; and when the vocabulary is injective (each index names one
word, the invariant of the data model) a duplicate-free input yields
duplicate-free content, so duplication occurs only when the input repeats a
token. -/
theorem sent2indices_content_provenance (sent : List String) (word_index : WordIndex)
    (max_l pad : Nat) :
    contentOf sent word_index max_l pad = (sent.filterMap word_index).take (max_l - pad) ∧
    (∀ v, v ∈ sent2indices sent word_index max_l pad → v ≠ 0 →
      ∃ w, w ∈ sent ∧ word_index w = some v) ∧
    ((∀ w w' v, word_index w = some v → word_index w' = some v → w = w') →
      sent.Nodup → (contentOf sent word_index max_l pad).Nodup) := by
  refine ⟨contentOf_eq sent word_index max_l pad, ?_, ?_⟩
  · intro v hv hv0
    rw [sent2indices, sent2loop_pad] at hv
    rcases List.mem_append.mp hv with h | h
    · rcases List.mem_append.mp h with h | h
      · exact absurd (List.eq_of_mem_replicate h) hv0
      · have : v ∈ sent.filterMap word_index := List.take_subset _ _ h
        rcases List.mem_filterMap.mp this with ⟨w, hw, hww⟩
        exact ⟨w, hw, hww⟩
    · exact absurd (List.eq_of_mem_replicate h) hv0
  · intro hinj hnd
    rw [contentOf_eq]
    exact List.Nodup.sublist (List.take_sublist _ _)
      (hnd.filterMap (fun a a' b hb hb' => hinj a a' b hb hb'))

/-- C10 witness: with vocabulary `\x7b"a": 1, "b": 2\x7d`, `max_l = 3`,
`pad = 1`, the input `["a", "b"]` has content `[1, 2]` in input order; the
nonzero element `1` of the encoding `[0, 1, 2, 0, 0]` comes from the token
`"a"`; and the content is duplicate-free. -/
theorem sent2indices_content_provenance_witness :
    contentOf ["a", "b"] wiAB 3 1 = (["a", "b"].filterMap wiAB).take (3 - 1) ∧
    (∃ w, w ∈ ["a", "b"] ∧ wiAB w = some 1) ∧
    (contentOf ["a", "b"] wiAB 3 1).Nodup := by
  have h := sent2indices_content_provenance ["a", "b"] wiAB 3 1
  refine ⟨h.1, h.2.1 1 (by decide) (by decide), h.2.2 ?_ (by decide)⟩
  intro w w' v hw hw'
  unfold wiAB at hw hw'
  split_ifs at hw hw' <;> simp_all <;> omega

/-- Summation of `q + (1 if i < r else 0)` over `i in range m`. -/
theorem sum_base_plus_extras (m q : Nat) :
    ∀ r, r ≤ m →
      ((List.range m).map (fun i => q + if i < r then 1 else 0)).sum = m * q + r := by
  induction m with
  | zero => intro r hr; interval_cases r; simp
  | succ m ih =>
    intro r hr
    rw [List.range_succ, List.map_append, List.sum_append]
    by_cases hrm : r ≤ m
    · rw [ih r hrm]
      have : ¬ m < r := by omega
      simp only [List.map_cons, List.map_nil, this, if_false, List.sum_cons, List.sum_nil]
      ring
    · have hr1 : r = m + 1 := by omega
      subst hr1
      have hcongr : (List.range m).map (fun i => q + if i < m + 1 then 1 else 0) =
          (List.range m).map (fun i => q + if i < m then 1 else 0) := by
        apply List.map_congr_left
        intro i hi
        have hi1 : i < m := List.mem_range.mp hi
        have hi2 : i < m + 1 := by omega
        simp [hi1, hi2]
      rw [hcongr, ih m (le_refl m)]
      have : m < m + 1 := by omega
      simp only [List.map_cons, List.map_nil, this, if_true, List.sum_cons, List.sum_nil]
      ring

/-- The fold sizes of `kfold` sum to `n`: `folds * (n / folds) + n % folds`. -/
theorem foldSizes_sum (n folds : Nat) (h : 0 < folds) : (foldSizes n folds).sum = n := by
  rw [foldSizes, sum_base_plus_extras folds (n / folds) (n % folds)
    (le_of_lt (Nat.mod_lt n h))]
  exact Nat.div_add_mod n folds

/-- Flattening the test slices of `kfoldSlices` recovers the stretch of
`indices` they were cut from. -/
theorem kfoldSlices_tests_flatten (indices : List Nat) :
    ∀ (ss : List Nat) (c : Nat),
      ((kfoldSlices indices c ss).map Prod.snd).flatten = (indices.drop c).take ss.sum := by
  intro ss
  induction ss with
  | nil => intro c; simp [kfoldSlices]
  | cons s rest ih =>
    intro c
    rw [kfoldSlices]
    simp only [List.map_cons, List.flatten_cons]
    rw [ih (c + s), List.sum_cons, List.take_add]
    rw [List.drop_drop]

/-- When the sizes fit in `indices`, the test slices have exactly the
requested sizes. -/
theorem kfoldSlices_tests_lengths (indices : List Nat) :
    ∀ (ss : List Nat) (c : Nat), c + ss.sum ≤ indices.length →
      (kfoldSlices indices c ss).map (fun p => p.2.length) = ss := by
  intro ss
  induction ss with
  | nil => intro c _; simp [kfoldSlices]
  | cons s rest ih =>
    intro c hc
    rw [List.sum_cons] at hc
    rw [kfoldSlices]
    simp only [List.map_cons]
    rw [ih (c + s) (by omega)]
    congr 1
    rw [List.length_take, List.length_drop]
    omega

/-- C1: for `folds ≥ 2` and any permutation `indices` of `range n` (the
one shuffle), the test slices yielded by `kfold` have sizes
`n / folds` with the first `n % folds` of them getting one extra element,
the sizes sum to `n`, their concatenation is a permutation of
`\x7b0, ..., n-1\x7d` (union exactly the index range, no element twice),
and the test sets are pairwise disjoint. -/
theorem kfold_partition (n folds : Nat) (indices : List Nat) (h2 : 2 ≤ folds)
    (hperm : indices.Perm (List.range n)) :
    (kfold indices n folds).map (fun p => p.2.length) =
      (List.range folds).map (fun i => n / folds + if i < n % folds then 1 else 0) ∧
    ((kfold indices n folds).map (fun p => p.2.length)).sum = n ∧
    (((kfold indices n folds).map Prod.snd).flatten).Perm (List.range n) ∧
    ((kfold indices n folds).map Prod.snd).Pairwise List.Disjoint := by
  have hfpos : 0 < folds := by omega
  have hlen : indices.length = n := hperm.length_eq.trans (List.length_range n)
  have hsum : (foldSizes n folds).sum = n := foldSizes_sum n folds hfpos
  have hsizes : (kfold indices n folds).map (fun p => p.2.length) = foldSizes n folds := by
    rw [kfold]
    exact kfoldSlices_tests_lengths indices (foldSizes n folds) 0 (by omega)
  have hflat : ((kfold indices n folds).map Prod.snd).flatten = indices := by
    rw [kfold, kfoldSlices_tests_flatten, hsum, List.drop_zero, ← hlen, List.take_length]
  refine ⟨hsizes, ?_, ?_, ?_⟩
  · rw [hsizes]; exact hsum
  · rw [hflat]; exact hperm
  · have hnd : (((kfold indices n folds).map Prod.snd).flatten).Nodup := by
      rw [hflat]
      exact (hperm.nodup_iff).mpr (List.nodup_range n)
    exact (List.nodup_flatten.mp hnd).2

/-- C1 witness: `n = 5`, `folds = 3`, with the concrete shuffled order
`[2, 0, 4, 1, 3]`: test sizes `[2, 2, 1]`, summing to 5, covering
`\x7b0, ..., 4\x7d` exactly once, pairwise disjoint. -/
theorem kfold_partition_witness :
    (kfold [2, 0, 4, 1, 3] 5 3).map (fun p => p.2.length) =
      (List.range 3).map (fun i => 5 / 3 + if i < 5 % 3 then 1 else 0) ∧
    ((kfold [2, 0, 4, 1, 3] 5 3).map (fun p => p.2.length)).sum = 5 ∧
    (((kfold [2, 0, 4, 1, 3] 5 3).map Prod.snd).flatten).Perm (List.range 5) ∧
    ((kfold [2, 0, 4, 1, 3] 5 3).map Prod.snd).Pairwise List.Disjoint :=
  kfold_partition 5 3 [2, 0, 4, 1, 3] (by omega) (by decide)

/-- C4: on the `folds < 2` path the generator yields exactly one value,
and that value is the bare index array `[0, ..., n-1]` — a single list,
not a (train, test) pair: the five-element array cannot be unpacked as the
two components `train_fold, test_fold` the caller expects, and it is not
the pair (empty train, full-range test) the spec describes. -/
theorem kfold_degenerate_yields_bare :
    kfoldDegenerate 5 = [[0, 1, 2, 3, 4]] ∧
    (kfoldDegenerate 5).length = 1 ∧
    ((kfoldDegenerate 5).headD []).length ≠ 2 := by
  refine ⟨rfl, rfl, by decide⟩

/-- C5: `read_corpus` hands the raw text field to `sent2indices`, which
iterates it character by character, so the record `"1\tneg\thello world"`
with vocabulary `\x7b"hello": 1, "world": 2\x7d`, `max_l = 5`, `pad = 1`
encodes to the all-zero row (no single character is in the vocabulary),
not to the encoding `[0, 1, 2, 0, 0, 0, 0]` of its whitespace tokens. -/
theorem read_corpus_encodes_characters :
    read_corpus wiHW 5 1 false 2 [["1", "neg", "hello world"]] =
      [[0, 0, 0, 0, 0, 0, 0]] ∧
    sent2indices ["hello", "world"] wiHW 5 1 = [0, 1, 2, 0, 0, 0, 0] ∧
    read_corpus wiHW 5 1 false 2 [["1", "neg", "hello world"]] ≠
      [sent2indices ["hello", "world"] wiHW 5 1] := by
  refine ⟨rfl, rfl, by decide⟩

/-- C6 counterexample: with three input lines and only two predictions the
output loop emits two re-labelled records — output is silently produced
for the shorter of the two sequences, there is no fatal error. -/
theorem zip_truncates_cex :
    emitAll ["neg", "pos"] 1
        [["1", "neg", "x"], ["2", "neg", "y"], ["3", "neg", "z"]] [1, 0] =
      [["1", "pos", "x"], ["2", "neg", "y"]] ∧
    (emitAll ["neg", "pos"] 1
        [["1", "neg", "x"], ["2", "neg", "y"], ["3", "neg", "z"]] [1, 0]).length = 2 ∧
    ([["1", "neg", "x"], ["2", "neg", "y"], ["3", "neg", "z"]] :
        List (List String)).length = 3 := by
  refine ⟨rfl, rfl, rfl⟩

/-- C6 amended: predictions are zipped positionally against the input
lines, and on a count mismatch the loop silently produces output for
exactly the shorter of the two sequences. -/
theorem emit_length_min (labels : List String) (tagField : Nat)
    (lines : List (List String)) (results : List Nat) :
    (emitAll labels tagField lines results).length = min lines.length results.length := by
  rw [emitAll, List.length_map, List.length_zip]

/-- Reading back the model block recovers the parameters and leaves the
trailing stream untouched. -/
theorem convLoad_convSave (params rest : List Tok) :
    convLoad (convSave params ++ rest) = some (params, rest) := by
  have h : params.length ≤ (params ++ rest).length := by
    rw [List.length_append]; omega
  simp [convSave, convLoad, h, List.take_left, List.drop_left]

/-- Reading back the serialized vocabulary pairs recovers them and leaves
the trailing stream untouched. -/
theorem decodePairs_encode :
    ∀ (v : Vocab) (rest : List Tok),
      decodePairs v.length ((v.map (fun p => [Tok.str p.1, Tok.nat p.2])).flatten ++ rest) =
        some (v, rest) := by
  intro v
  induction v with
  | nil => intro rest; simp [decodePairs]
  | cons p ps ih =>
    intro rest
    obtain ⟨w, i⟩ := p
    simp only [List.map_cons, List.flatten_cons, List.length_cons, List.cons_append,
      List.append_assoc, List.nil_append]
    rw [decodePairs]
    rw [ih rest]

/-- Reading back the serialized label list recovers it and leaves the
trailing stream untouched. -/
theorem decodeStrs_encode :
    ∀ (ls : List String) (rest : List Tok),
      decodeStrs ls.length (ls.map Tok.str ++ rest) = some (ls, rest) := by
  intro ls
  induction ls with
  | nil => intro rest; simp [decodeStrs]
  | cons w ws ih =>
    intro rest
    simp only [List.map_cons, List.length_cons, List.cons_append]
    rw [decodeStrs]
    rw [ih rest]

/-- Running `pickle.load` on exactly what `pickle.dump` wrote recovers the
metadata tuple. -/
theorem unpickle_pickle (v : Vocab) (ml pd : Nat) (ls : List String) :
    unpickleMeta (pickleMeta v ml pd ls) = some ((v, ml, pd, ls), []) := by
  rw [pickleMeta, pickleVocab, pickleLabels]
  simp only [List.cons_append, List.append_assoc, List.nil_append]
  rw [unpickleMeta]
  simp only [takeNat, Option.bind_eq_bind, Option.some_bind]
  have h1 := decodePairs_encode v
    ([Tok.nat ml, Tok.nat pd] ++ (Tok.nat ls.length :: ls.map Tok.str))
  simp only [List.cons_append, List.append_assoc, List.nil_append] at h1
  rw [h1]
  simp only [takeNat, Option.some_bind, List.cons_append, List.nil_append]
  have h2 := decodeStrs_encode ls []
  rw [List.append_nil] at h2
  rw [h2]
  simp only [Option.some_bind]

/-- C7: the persistence round trip — write the model block, then the
metadata record; read the model block first, then the trailing metadata
from the remaining stream — reproduces the metadata tuple
`(word_index, max_l, pad, labels)` structurally, for every vocabulary,
`max_l`, `pad`, label table and arbitrary model parameters. -/
theorem save_load_roundtrip (params : List Tok) (v : Vocab) (max_l pad : Nat)
    (labels : List String) :
    loadModel (saveModel params v max_l pad labels) =
      some (params, (v, max_l, pad, labels)) := by
  rw [saveModel, loadModel]
  rw [convLoad_convSave]
  simp only [Option.bind_eq_bind, Option.some_bind]
  rw [unpickle_pickle]
  simp only [Option.some_bind]

/-- C8: the reported final metric is `np.mean` of the per-fold accuracies —
the unweighted arithmetic mean: it equals the sum of the accuracies divided
by their count for every run, and on the concrete `kfold(5, 3)` fold sizes
`[2, 2, 1]` with accuracies `1, 0, 0` it is `1/3`, not the size-weighted
mean `2/5`. -/
theorem avg_accuracy_unweighted :
    (∀ (cv : Nat) (perf : Nat → ℚ),
      avgAccuracy cv perf = ((List.range cv).map perf).sum / (cv : ℚ)) ∧
    avgAccuracy 3 (fun i => if i = 0 then 1 else 0) = 1 / 3 ∧
    sizeWeightedMean (foldSizes 5 3) [1, 0, 0] = 2 / 5 ∧
    avgAccuracy 3 (fun i => if i = 0 then 1 else 0) ≠
      sizeWeightedMean (foldSizes 5 3) [1, 0, 0] := by
  have h1 : ∀ (cv : Nat) (perf : Nat → ℚ),
      avgAccuracy cv perf = ((List.range cv).map perf).sum / (cv : ℚ) := by
    intro cv perf
    rw [avgAccuracy, npMean, cvResults, List.length_map, List.length_range]
  have h2 : avgAccuracy 3 (fun i => if i = 0 then 1 else 0) = 1 / 3 := by
    rw [h1]
    norm_num [List.range_succ]
  have h3 : sizeWeightedMean (foldSizes 5 3) [1, 0, 0] = 2 / 5 := by
    rw [sizeWeightedMean]
    norm_num [foldSizes, List.range_succ]
  refine ⟨h1, h2, h3, ?_⟩
  rw [h2, h3]
  norm_num
